import Mathlib

/-!
Verification development for the wasm export layer of the 2048 solver
(`src/wasm/export_solver.cpp`).

Boards (`board_t`, a `uint64_t`) are modelled as `Nat`; every operation
keeps all nibbles inside the low 64 bits, so no explicit `% 2^64` is
needed where stated.  C++ `int` parameters are modelled as `Int`
(`double`/`float` probabilities as `Rat`; no claim depends on binary
floating-point rounding).  C++ `std::string` values are modelled as
lists of bytes (`List Nat`), which is what embind hands the module.
-/

namespace Solver2048

/-- Byte-wise ASCII lowercase: C `std::tolower` in the default "C" locale
maps `A`..`Z` (65..90) to `a`..`z` and leaves every other byte unchanged. -/
def toLowerByte (c : Nat) : Nat :=
  if 65 ≤ c ∧ c ≤ 90 then c + 32 else c

/-- Function `toLowerCopy` from `export_solver.cpp`: lowercases every byte of the string. -/
def toLowerCopy (s : List Nat) : List Nat :=
  s.map toLowerByte

/-- Byte list of a string literal (all keys in the source are ASCII). -/
def strBytes (s : String) : List Nat :=
  s.data.map Char.toNat

/-- The heuristic evaluators named in `heuristics.hpp` and referenced by
`resolveHeuristic`.  Only their identity matters for the export layer, so
they are modelled as a tag type. -/
inductive Heuristic where
  | score
  | merge
  | corner
  | strict_wall
  | wall_gap
  | full_wall
  | skewed_corner
  | monotonicity
  deriving DecidableEq, Repr

/-- Function `resolveHeuristic` from `export_solver.cpp`: lowercases the name and
matches it against the known keys, defaulting to the corner heuristic. -/
def resolveHeuristic (name : List Nat) : Heuristic :=
  let key := toLowerCopy name
  if key = strBytes "score" then Heuristic.score
  else if key = strBytes "merge" then Heuristic.merge
  else if key = strBytes "corner" ∨ key = strBytes "corner_bias" then Heuristic.corner
  else if key = strBytes "wall" ∨ key = strBytes "strict_wall" then Heuristic.strict_wall
  else if key = strBytes "wall_gap" then Heuristic.wall_gap
  else if key = strBytes "full_wall" then Heuristic.full_wall
  else if key = strBytes "skewed_corner" then Heuristic.skewed_corner
  else if key = strBytes "monotonicity" then Heuristic.monotonicity
  else Heuristic.corner

/-- The key strings `resolveHeuristic` recognizes (every string compared
against `key` in its if-chain). -/
def recognizedHeuristicNames : List (List Nat) :=
  [strBytes "score", strBytes "merge", strBytes "corner", strBytes "corner_bias",
   strBytes "wall", strBytes "strict_wall", strBytes "wall_gap",
   strBytes "full_wall", strBytes "skewed_corner", strBytes "monotonicity"]

/-- Constant `kMaxExponent = 0xF` from `export_solver.cpp`. -/
def kMaxExponent : Int := 15

/-- Function `clampExponent` from `export_solver.cpp`. -/
def clampExponent (value : Int) : Int :=
  if value < 0 then 0
  else if value > kMaxExponent then kMaxExponent
  else value

/-- The nibble `boardFromArray` packs for one input tile:
`static_cast<board_t>(clampExponent(tiles[i])) & kMaxExponent`. -/
def tileNibble (t : Int) : Nat :=
  (clampExponent t).toNat &&& 15

/-- The packing loop of `boardFromArray`: `board |= nibble << (i * 4)` for
each index `i` below `min(tiles.size(), 16)`, here as a recursion carrying
the current index (the `i < 16` guard is the loop bound `limit`). -/
def packTiles : List Int → Nat → Nat
  | [], _ => 0
  | t :: rest, i =>
    if i < 16 then (tileNibble t <<< (i * 4)) ||| packTiles rest (i + 1)
    else 0

/-- Function `boardFromArray` from `export_solver.cpp`. -/
def boardFromArray (tiles : List Int) : Nat :=
  packTiles tiles 0

/-- Function `arrayFromBoard` from `export_solver.cpp`:
`tiles[i] = (board >> (i * 4)) & 0xF` for `i` in `0..15`. -/
def arrayFromBoard (board : Nat) : List Int :=
  (List.range 16).map (fun i => (((board >>> (i * 4)) &&& 15 : Nat) : Int))

/-- The concrete strategy objects `makeStrategy` can build, each carrying
the constructor arguments the source passes to it. -/
inductive Strategy where
  | ExpectimaxDepthStrategy (depth : Int) (evaluator : Heuristic)
  | ExpectimaxProbabilityStrategy (probability : Rat) (evaluator : Heuristic)
  | MonteCarloPlayer (iterations : Int)
  | RandomTrialsStrategy (gamesPerMove : Int) (branchDepth : Int) (width : Int)
  | RandomPlayer
  deriving DecidableEq, Repr

/-- Function `makeStrategy` from `export_solver.cpp`: lowercases the type string and
dispatches, applying the documented defaults for non-positive parameters
(the `double` to `float` probability narrowing is modelled as the identity
on `Rat`; no claim depends on it). -/
def makeStrategy (type : List Nat) (evaluator : Heuristic) (depth : Int)
    (probability : Rat) (trials : Int) : Strategy :=
  let key := toLowerCopy type
  if key = strBytes "expectimax-depth" ∨ key = strBytes "expectimax" then
    Strategy.ExpectimaxDepthStrategy (if depth ≤ 0 then 4 else depth) evaluator
  else if key = strBytes "expectimax-probability" then
    Strategy.ExpectimaxProbabilityStrategy
      (if probability > 0 then probability else 1 / 1000) evaluator
  else if key = strBytes "monte-carlo" then
    Strategy.MonteCarloPlayer (if trials > 0 then trials else max 128 (depth * 128))
  else if key = strBytes "random-trials" then
    Strategy.RandomTrialsStrategy (if trials > 0 then trials else 32)
      (if depth > 0 then depth else 3) 2
  else if key = strBytes "random" then
    Strategy.RandomPlayer
  else
    Strategy.ExpectimaxDepthStrategy (if depth ≤ 0 then 4 else depth) evaluator

/-- Modelled from the spec: the slide-and-merge of one row toward the low
index, which `GameSimulator::make_move` (declared in `game.hpp`, not under
`src/`) performs through its precomputed transition tables — "the row value
after sliding all tiles toward one end and merging each adjacent equal pair
exactly once (a tile produced by a merge cannot merge again within the same
slide)".  Merging two exponent-`e` tiles yields exponent `e + 1`, capped at
15 to keep every nibble in `[0, 15]`. -/
def mergeRow : List Nat → List Nat
  | a :: b :: rest =>
    if a = b then min (a + 1) 15 :: mergeRow rest
    else a :: mergeRow (b :: rest)
  | l => l

/-- Modelled from the spec: slide one 4-cell row toward index 0, merging
once, then pad with empty cells on the high side. -/
def slideRowLeft (row : List Nat) : List Nat :=
  let compacted := mergeRow (row.filter (fun c => c != 0))
  compacted ++ List.replicate (4 - compacted.length) 0

/-- The 16 nibble cells of a board, row-major (cell `i` at bits `4*i`). -/
def boardCells (b : Nat) : List Nat :=
  (List.range 16).map (fun i => (b >>> (4 * i)) &&& 15)

/-- Packs 16 nibble cells back into a board word. -/
def packCells : List Nat → Nat → Nat
  | [], _ => 0
  | c :: rest, i =>
    if i < 16 then ((c &&& 15) <<< (4 * i)) ||| packCells rest (i + 1)
    else 0

/-- Board from a row-major cell list. -/
def cellsBoard (cells : List Nat) : Nat :=
  packCells cells 0

/-- The four 4-cell rows of a row-major cell list. -/
def rowsOf (cells : List Nat) : List (List Nat) :=
  (List.range 4).map (fun r => (List.range 4).map (fun c => cells.getD (4 * r + c) 0))

/-- Apply the leftward slide to every row of a cell list. -/
def moveLeftCells (cells : List Nat) : List Nat :=
  ((rowsOf cells).map slideRowLeft).flatten

/-- Reverse every row of a cell list (swaps the low and high ends). -/
def reverseRowsCells (cells : List Nat) : List Nat :=
  ((rowsOf cells).map List.reverse).flatten

/-- Transpose a row-major cell list (rows become columns). -/
def transposeCells (cells : List Nat) : List Nat :=
  (List.range 16).map (fun i => cells.getD (4 * (i % 4) + i / 4) 0)

/-- Modelled from the spec: `GameSimulator::make_move` (declared in
`game.hpp`, not under `src/`) — "decompose into 4 rows or columns per axis,
look up each via TransitionTables, reassemble".  The spec fixes the
direction-to-axis mapping only up to consistency; here 0 = left, 1 = up,
2 = right, 3 = down.  Only directions 0..3 reach this function from the
export layer. -/
def make_move (b : Nat) (direction : Int) : Nat :=
  let cells := boardCells b
  let moved :=
    if direction = 0 then moveLeftCells cells
    else if direction = 1 then transposeCells (moveLeftCells (transposeCells cells))
    else if direction = 2 then reverseRowsCells (moveLeftCells (reverseRowsCells cells))
    else transposeCells (reverseRowsCells (moveLeftCells (reverseRowsCells (transposeCells cells))))
  cellsBoard moved

/-- Function `isValidMove` from `export_solver.cpp`: directions outside 0..3 are
invalid; otherwise the move is valid iff it changes the board. -/
def isValidMove (board : Nat) (direction : Int) : Bool :=
  if direction < 0 ∨ direction > 3 then false
  else board != make_move board direction

/-- Function `makeMove` from `export_solver.cpp`: directions outside 0..3 return the
board unchanged; otherwise the move of the simulator is applied. -/
def makeMove (board : Nat) (direction : Int) : Nat :=
  if direction < 0 ∨ direction > 3 then board
  else make_move board direction

/-- The state of `StrategyWrapper` from `export_solver.cpp`: the built
strategy (`none` models a null `unique_ptr`) plus the stored configuration
fields, named as in the source. -/
structure StrategyWrapper where
  strategy_ : Option Strategy
  evaluator_ : Heuristic
  strategy_type_ : List Nat
  heuristic_name_ : List Nat
  depth_ : Int
  probability_ : Rat
  trials_ : Int
  deriving DecidableEq, Repr

/-- Method `StrategyWrapper::configure`: stores the lowered names and numeric
parameters, re-resolves the evaluator, and rebuilds the strategy with the
stored trial count. -/
def StrategyWrapper.configure (w : StrategyWrapper) (type heuristic : List Nat)
    (depth : Int) (probability : Rat) : StrategyWrapper :=
  let st := toLowerCopy type
  let hn := toLowerCopy heuristic
  let ev := resolveHeuristic hn
  { strategy_ := some (makeStrategy st ev depth probability w.trials_)
    evaluator_ := ev
    strategy_type_ := st
    heuristic_name_ := hn
    depth_ := depth
    probability_ := probability
    trials_ := w.trials_ }

/-- The `StrategyWrapper` constructor: member defaults (corner evaluator,
"expectimax-depth"/"corner" names, depth 4, probability 0.0025, trials 256,
null strategy), then `configure` with the lowered argument strings — since
`configure` lowers again and lowering is idempotent, this equals
`configure` on the raw arguments. -/
def StrategyWrapper.init (type heuristic : List Nat) (depth : Int)
    (probability : Rat) : StrategyWrapper :=
  StrategyWrapper.configure
    { strategy_ := none
      evaluator_ := Heuristic.corner
      strategy_type_ := strBytes "expectimax-depth"
      heuristic_name_ := strBytes "corner"
      depth_ := 4
      probability_ := 1 / 400
      trials_ := 256 }
    (toLowerCopy type) (toLowerCopy heuristic) depth probability

/-- Method `StrategyWrapper::setTrials`: stores the new trial count and rebuilds
the strategy from the stored type, evaluator, depth and probability. -/
def StrategyWrapper.setTrials (w : StrategyWrapper) (trials : Int) : StrategyWrapper :=
  { w with
    trials_ := trials
    strategy_ := some (makeStrategy w.strategy_type_ w.evaluator_ w.depth_ w.probability_ trials) }

/-! ### Helper lemmas -/

lemma toLowerByte_idem (c : Nat) : toLowerByte (toLowerByte c) = toLowerByte c := by
  unfold toLowerByte
  split_ifs <;> omega

lemma toLowerCopy_idem (s : List Nat) : toLowerCopy (toLowerCopy s) = toLowerCopy s := by
  induction s with
  | nil => rfl
  | cons a rest ih =>
    simp [toLowerCopy, toLowerByte_idem]

lemma clampExponent_idem (v : Int) : clampExponent (clampExponent v) = clampExponent v := by
  unfold clampExponent kMaxExponent
  split_ifs <;> omega

lemma packTiles_map_clamp (tiles : List Int) (i : Nat) :
    packTiles (tiles.map clampExponent) i = packTiles tiles i := by
  induction tiles generalizing i with
  | nil => rfl
  | cons t rest ih =>
    simp [packTiles, tileNibble, clampExponent_idem, ih]

lemma tileNibble_lt (t : Int) : tileNibble t < 16 :=
  Nat.lt_succ_of_le Nat.and_le_right

lemma tileNibble_testBit_high (t : Int) {r : Nat} (hr : 4 ≤ r) :
    (tileNibble t).testBit r = false := by
  apply Nat.testBit_lt_two_pow
  calc tileNibble t < 16 := tileNibble_lt t
    _ = 2 ^ 4 := by norm_num
    _ ≤ 2 ^ r := Nat.pow_le_pow_right (by omega) hr

/-- Bit `4*q + r` (with `r < 4`) of the accumulator of the packing loop started
at index `i0`: it is bit `r` of the nibble for input index `q - i0`, when
`q` lies in the packed range, and 0 otherwise. -/
lemma testBit_packTiles (tiles : List Int) (i0 q r : Nat) (hr : r < 4) :
    (packTiles tiles i0).testBit (4 * q + r)
      = (decide (i0 ≤ q ∧ q < 16) && (tileNibble (tiles.getD (q - i0) 0)).testBit r) := by
  induction tiles generalizing i0 with
  | nil =>
    have : tileNibble 0 = 0 := rfl
    simp [packTiles, this]
  | cons t rest ih =>
    by_cases h16 : i0 < 16
    · rw [packTiles, if_pos h16, Nat.testBit_or, Nat.testBit_shiftLeft]
      rcases Nat.lt_trichotomy q i0 with hlt | heq | hgt
      · have hd1 : ¬(4 * q + r ≥ i0 * 4) := by omega
        have hd2 : ¬(i0 + 1 ≤ q ∧ q < 16) := by omega
        have hd3 : ¬(i0 ≤ q ∧ q < 16) := by omega
        rw [ih i0.succ]
        simp [hd1, hd2, hd3]
      · subst heq
        have hd1 : 4 * q + r ≥ q * 4 := by omega
        have hidx : 4 * q + r - q * 4 = r := by omega
        have hd2 : ¬(q + 1 ≤ q ∧ q < 16) := by omega
        have hd3 : q ≤ q ∧ q < 16 := ⟨Nat.le_refl q, h16⟩
        rw [ih q.succ, hidx]
        simp [hd1, hd2, hd3]
      · have hhi : 4 ≤ 4 * q + r - i0 * 4 := by omega
        have hd2 : decide (i0 + 1 ≤ q ∧ q < 16) = decide (i0 ≤ q ∧ q < 16) := by
          simp only [decide_eq_decide]
          omega
        have hidx : q - i0 = (q - (i0 + 1)) + 1 := by omega
        rw [ih i0.succ, tileNibble_testBit_high t hhi, hidx, List.getD_cons_succ, hd2]
        simp
    · have hd : ¬(i0 ≤ q ∧ q < 16) := by omega
      rw [packTiles, if_neg h16]
      simp [hd]

/-- Nibble extraction from a packed board: cell `i` (for `i < 16`) of
`boardFromArray tiles` is the clamped nibble of input `i` (0 when the
input list is shorter). -/
lemma boardFromArray_extract (tiles : List Int) {i : Nat} (hi : i < 16) :
    (boardFromArray tiles >>> (i * 4)) &&& 15 = tileNibble (tiles.getD i 0) := by
  apply Nat.eq_of_testBit_eq
  intro j
  rcases Nat.lt_or_ge j 4 with hj | hj
  · rw [Nat.testBit_and, Nat.testBit_shiftRight]
    have harith : i * 4 + j = 4 * i + j := by omega
    rw [harith, boardFromArray, testBit_packTiles tiles 0 i j hj]
    have h15 : (15 : Nat).testBit j = true := by
      interval_cases j <;> decide
    simp [hi, h15, Nat.zero_le]
  · rw [Nat.testBit_and]
    have h15 : (15 : Nat).testBit j = false :=
      Nat.testBit_lt_two_pow (by
        calc (15 : Nat) < 2 ^ 4 := by decide
        _ ≤ 2 ^ j := Nat.pow_le_pow_right (by omega) hj)
    rw [h15, tileNibble_testBit_high _ hj]
    simp

/-- The packed board fits in 64 bits. -/
lemma packTiles_lt (tiles : List Int) (i0 : Nat) : packTiles tiles i0 < 2 ^ 64 := by
  induction tiles generalizing i0 with
  | nil => simp [packTiles]
  | cons t rest ih =>
    rw [packTiles]
    split
    · apply Nat.or_lt_two_pow _ (ih (i0 + 1))
      calc tileNibble t <<< (i0 * 4) < 2 ^ (4 + i0 * 4) :=
            Nat.shiftLeft_lt (tileNibble_lt t)
        _ ≤ 2 ^ 64 := Nat.pow_le_pow_right (by omega) (by omega)
    · simp

/-- For an in-range exponent the packed nibble is the value itself. -/
lemma tileNibble_of_range {x : Int} (h0 : 0 ≤ x) (h15 : x ≤ 15) :
    tileNibble x = x.toNat := by
  unfold tileNibble clampExponent kMaxExponent
  rw [if_neg (by omega), if_neg (by omega)]
  have h24 : (2 : Nat) ^ 4 = 16 := by norm_num
  have hx : x.toNat < 2 ^ 4 := by omega
  have h15n : (15 : Nat) = 2 ^ 4 - 1 := by norm_num
  rw [h15n, Nat.and_pow_two_sub_one_of_lt_two_pow hx]

/-- Decoding then re-encoding is the identity on 64-bit boards. -/
lemma boardFromArray_arrayFromBoard (b : Nat) (hb : b < 2 ^ 64) :
    boardFromArray (arrayFromBoard b) = b := by
  apply Nat.eq_of_testBit_eq
  intro m
  obtain ⟨q, r, hr, rfl⟩ : ∃ q r, r < 4 ∧ m = 4 * q + r :=
    ⟨m / 4, m % 4, by omega, by omega⟩
  rw [boardFromArray, testBit_packTiles _ 0 q r hr, Nat.sub_zero]
  by_cases hq : q < 16
  · have hlen : q < (arrayFromBoard b).length := by
      simp [arrayFromBoard]
      omega
    have hgd : (arrayFromBoard b).getD q 0 = (((b >>> (q * 4)) &&& 15 : Nat) : Int) := by
      rw [List.getD_eq_getElem?_getD, List.getElem?_eq_getElem hlen]
      simp [arrayFromBoard]
    have hval : ((b >>> (q * 4)) &&& 15) < 16 := Nat.lt_succ_of_le Nat.and_le_right
    have hnib : tileNibble (((b >>> (q * 4)) &&& 15 : Nat) : Int)
        = (b >>> (q * 4)) &&& 15 := by
      rw [tileNibble_of_range (by omega) (by omega)]
      omega
    rw [hgd, hnib, Nat.testBit_and, Nat.testBit_shiftRight]
    have h15 : (15 : Nat).testBit r = true := by
      interval_cases r <;> decide
    have harith : q * 4 + r = 4 * q + r := by omega
    simp [hq, h15, harith]
  · have hhigh : b.testBit (4 * q + r) = false :=
      Nat.testBit_lt_two_pow
        (lt_of_lt_of_le hb (Nat.pow_le_pow_right (by omega) (by omega)))
    rw [hhigh]
    simp [hq]

/-! ### Claim theorems -/

/-- C1: for every 16-element integer sequence with all values in
`[0, 15]`, decoding the encoded board returns the same sequence:
`arrayFromBoard (boardFromArray v) = v`. -/
theorem arrayFromBoard_boardFromArray_roundtrip (v : List Int)
    (hlen : v.length = 16) (hrange : ∀ x ∈ v, 0 ≤ x ∧ x ≤ 15) :
    arrayFromBoard (boardFromArray v) = v := by
  apply List.ext_getElem
  · simp [arrayFromBoard, hlen]
  · intro i h1 h2
    have hi : i < 16 := by
      simp [arrayFromBoard] at h1
      exact h1
    simp only [arrayFromBoard, List.getElem_map, List.getElem_range]
    rw [boardFromArray_extract v hi]
    have hiv : i < v.length := by omega
    have hgd : v.getD i 0 = v[i] := by
      rw [List.getD_eq_getElem?_getD, List.getElem?_eq_getElem hiv]
      rfl
    have hx := hrange v[i] (List.getElem_mem hiv)
    rw [hgd, tileNibble_of_range hx.1 hx.2]
    omega

/-- C1 witness: the sequence of all sixteen exponents 0..15 round-trips. -/
theorem arrayFromBoard_boardFromArray_roundtrip_witness :
    arrayFromBoard
        (boardFromArray [0, 1, 2, 3, 4, 5, 6, 7, 8, 9, 10, 11, 12, 13, 14, 15])
      = [0, 1, 2, 3, 4, 5, 6, 7, 8, 9, 10, 11, 12, 13, 14, 15] :=
  arrayFromBoard_boardFromArray_roundtrip
    [0, 1, 2, 3, 4, 5, 6, 7, 8, 9, 10, 11, 12, 13, 14, 15]
    (by decide) (by decide)

/-- C4: encoding is idempotent after one clamp — for every integer
sequence `x`, `boardFromArray (arrayFromBoard (boardFromArray x))
= boardFromArray x`. -/
theorem boardFromArray_idempotent_after_clamp (x : List Int) :
    boardFromArray (arrayFromBoard (boardFromArray x)) = boardFromArray x :=
  boardFromArray_arrayFromBoard _ (packTiles_lt x 0)

/-- C10: `boardFromArray` accepts a sequence of any length — entries past
index 15 are ignored and missing cells stay empty, so the result equals
encoding the sequence truncated to 16 entries and padded with zeros. -/
theorem boardFromArray_truncate_pad (v : List Int) :
    boardFromArray v
      = boardFromArray (v.take 16 ++ List.replicate (16 - v.length) 0) := by
  apply Nat.eq_of_testBit_eq
  intro m
  obtain ⟨q, r, hr, rfl⟩ : ∃ q r, r < 4 ∧ m = 4 * q + r :=
    ⟨m / 4, m % 4, by omega, by omega⟩
  rw [boardFromArray, boardFromArray, testBit_packTiles _ 0 q r hr,
    testBit_packTiles _ 0 q r hr, Nat.sub_zero]
  by_cases hq : q < 16
  · have hgd : (v.take 16 ++ List.replicate (16 - v.length) 0).getD q 0
        = v.getD q 0 := by
      rw [List.getD_eq_getElem?_getD, List.getD_eq_getElem?_getD]
      by_cases hlv : q < v.length
      · rw [List.getElem?_append_left (by
          simp
          omega), List.getElem?_take_of_lt hq]
      · have hvq : v[q]? = none := List.getElem?_eq_none (by omega)
        have hlt : (v.take 16).length ≤ q := by
          simp
          omega
        have hrep : q - (v.take 16).length < 16 - v.length := by
          simp
          omega
        rw [List.getElem?_append_right hlt, hvq,
          List.getElem?_replicate_of_lt hrep]
        rfl
    rw [hgd]
  · simp [hq]

/-- C2: for every board and integer direction, `isValidMove b d` is true
iff `d` is in 0..3 and `makeMove b d` differs from `b`; any direction
outside 0..3 is reported invalid and `makeMove` returns the board
unchanged (both functions are total, so no error is raised). -/
theorem isValidMove_iff_makeMove_changes (b : Nat) (d : Int) :
    (isValidMove b d = true ↔ (0 ≤ d ∧ d ≤ 3) ∧ makeMove b d ≠ b)
    ∧ (¬(0 ≤ d ∧ d ≤ 3) → isValidMove b d = false ∧ makeMove b d = b) := by
  unfold isValidMove makeMove
  by_cases h : d < 0 ∨ d > 3
  · rw [if_pos h, if_pos h]
    constructor
    · simp only [Bool.false_eq_true, false_iff, ne_eq, not_and, not_not]
      intro hd
      omega
    · intro _
      exact ⟨rfl, rfl⟩
  · rw [if_neg h, if_neg h]
    constructor
    · rw [bne_iff_ne]
      constructor
      · intro hne
        exact ⟨by omega, fun hmm => hne hmm.symm⟩
      · intro hc
        exact fun hbm => hc.2 hbm.symm
    · intro hc
      exact absurd (by omega) hc

/-- C2 witness: at board 0 and direction 7 the move is invalid and the
board is unchanged. -/
theorem isValidMove_iff_makeMove_changes_witness :
    isValidMove 0 7 = false ∧ makeMove 0 7 = 0 :=
  (isValidMove_iff_makeMove_changes 0 7).2 (by decide)

/-- C3: each input value is clamped into `[0, 15]` before packing, so
`boardFromArray` of any integer sequence equals `boardFromArray` of the
pointwise-clamped sequence (and both are total — no failure). -/
theorem boardFromArray_eq_boardFromArray_clamped (tiles : List Int) :
    boardFromArray tiles = boardFromArray (tiles.map clampExponent) :=
  (packTiles_map_clamp tiles 0).symm

/-- C5: heuristic resolution is case-insensitive
(`resolveHeuristic s = resolveHeuristic (toLowerCopy s)`), and any name
whose lowering is not among the recognized keys resolves to the corner
heuristic rather than failing. -/
theorem resolveHeuristic_case_insensitive_and_default (s : List Nat) :
    resolveHeuristic s = resolveHeuristic (toLowerCopy s)
    ∧ (toLowerCopy s ∉ recognizedHeuristicNames →
        resolveHeuristic s = Heuristic.corner) := by
  constructor
  · unfold resolveHeuristic
    rw [toLowerCopy_idem]
  · intro h
    simp only [recognizedHeuristicNames, List.mem_cons, List.not_mem_nil, or_false,
      not_or] at h
    obtain ⟨h1, h2, h3, h4, h5, h6, h7, h8, h9, h10⟩ := h
    simp [resolveHeuristic, h1, h2, h3, h4, h5, h6, h7, h8, h9, h10]

/-- C5 witness: the mixed-case unrecognized name "Bogus" resolves to the
corner heuristic. -/
theorem resolveHeuristic_case_insensitive_and_default_witness :
    resolveHeuristic (strBytes "Bogus") = Heuristic.corner :=
  (resolveHeuristic_case_insensitive_and_default (strBytes "Bogus")).2 (by decide)

/-- C6: constructing a strategy wrapper with unrecognized type
"bogus-type", unrecognized heuristic "bogus-heuristic", depth 0 and
probability -1 builds an expectimax-depth strategy with depth 4 and the
corner heuristic (likewise for a direct `makeStrategy` call with the
resolved heuristic and the default wrapper trial count 256). -/
theorem makeStrategy_bogus_defaults :
    (StrategyWrapper.init (strBytes "bogus-type") (strBytes "bogus-heuristic")
        0 (-1)).strategy_
      = some (Strategy.ExpectimaxDepthStrategy 4 Heuristic.corner)
    ∧ makeStrategy (strBytes "bogus-type")
        (resolveHeuristic (strBytes "bogus-heuristic")) 0 (-1) 256
      = Strategy.ExpectimaxDepthStrategy 4 Heuristic.corner := by
  constructor
  · rfl
  · rfl

/-- C7: for the "monte-carlo" type a non-positive trial count is replaced
by `max 128 (depth * 128)` and a positive one is used as given; in
particular depth 2 with trials 0 yields 256 iterations. -/
theorem makeStrategy_monteCarlo_trials :
    (∀ (e : Heuristic) (d : Int) (p : Rat) (t : Int),
        makeStrategy (strBytes "monte-carlo") e d p t
          = Strategy.MonteCarloPlayer (if t > 0 then t else max 128 (d * 128)))
    ∧ (∀ (e : Heuristic) (p : Rat),
        makeStrategy (strBytes "monte-carlo") e 2 p 0
          = Strategy.MonteCarloPlayer 256) :=
  ⟨fun _ _ _ _ => rfl, fun _ _ => rfl⟩

/-- C8: for the "random-trials" type, non-positive trials default
`gamesPerMove` to 32, non-positive depth defaults `branchDepth` to 3, the
width is always the fixed value 2; in particular depth 0 and trials 0
give `RandomTrialsStrategy 32 3 2`. -/
theorem makeStrategy_randomTrials_defaults :
    (∀ (e : Heuristic) (d : Int) (p : Rat) (t : Int),
        makeStrategy (strBytes "random-trials") e d p t
          = Strategy.RandomTrialsStrategy (if t > 0 then t else 32)
              (if d > 0 then d else 3) 2)
    ∧ (∀ (e : Heuristic) (p : Rat),
        makeStrategy (strBytes "random-trials") e 0 p 0
          = Strategy.RandomTrialsStrategy 32 3 2) :=
  ⟨fun _ _ _ _ => rfl, fun _ _ => rfl⟩

/-- C9: `setTrials` changes only the trial count and the rebuilt strategy:
the stored type, heuristic name, evaluator, depth and probability are
unchanged, and the strategy is rebuilt from exactly those stored fields
with the new trial count. -/
theorem setTrials_frame (w : StrategyWrapper) (t : Int) :
    (w.setTrials t).strategy_type_ = w.strategy_type_
    ∧ (w.setTrials t).heuristic_name_ = w.heuristic_name_
    ∧ (w.setTrials t).evaluator_ = w.evaluator_
    ∧ (w.setTrials t).depth_ = w.depth_
    ∧ (w.setTrials t).probability_ = w.probability_
    ∧ (w.setTrials t).trials_ = t
    ∧ (w.setTrials t).strategy_
        = some (makeStrategy w.strategy_type_ w.evaluator_ w.depth_
            w.probability_ t) :=
  ⟨rfl, rfl, rfl, rfl, rfl, rfl, rfl⟩

end Solver2048
